/-
Verification of the batch-splitting, batch-execution, file-reconciliation and
cleanup logic of chronoschema.py (an MSSQL schema/migration workflow tool).

Texts are modelled as `List Char`.  The database driver, the external
scripting engine and the file system are modelled as explicit data
(event lists, oracles, association lists, directory trees), mirroring the
structure of the Python source line by line.
-/
import Mathlib

namespace Chronoschema

/-! ## Batch splitter

`migration_to_db` and `schema_to_db` split a script with
`re.split(r"(?<=)GO\n", text)[:-1]`.  The lookbehind `(?<=)` is empty and
matches everywhere, so the pattern is the plain literal `GO\n`:  `re.split`
cuts the text at every (leftmost, non-overlapping) occurrence of the
three-character substring `G`,`O`,`'\n'`, drops each separator, and the
`[:-1]` discards the final piece.  `sepHead s` tests whether such an
occurrence starts at the head of `s`. -/

/-- Does the literal separator `G`,`O`,`'\n'` occur at the head of the text? -/
def sepHead (s : List Char) : Bool :=
  match s with
  | a :: b :: c :: _ => a == 'G' && b == 'O' && c == '\n'
  | _ => false

/-- Does the separator occur anywhere in the text? -/
def hasSep : List Char → Bool
  | [] => false
  | c :: cs => sepHead (c :: cs) || hasSep cs

/-- `re.split(r"(?<=)GO\n", s)`: cut at every leftmost occurrence of the
literal `GO\n`, excluding the separator itself from the pieces. -/
def rawSplitGO : List Char → List (List Char)
  | [] => [[]]
  | c :: cs =>
    if sepHead (c :: cs) then [] :: rawSplitGO (cs.drop 2)
    else
      match rawSplitGO cs with
      | [] => [[c]]
      | p :: ps => (c :: p) :: ps
termination_by s => s.length
decreasing_by
  · simp only [List.length_cons, List.length_drop]
    omega
  · simp

/-- `re.split(r"(?<=)GO\n", s)[:-1]`: the raw split with its last element
dropped — the batch list both commands execute. -/
def batches (s : List Char) : List (List Char) :=
  (rawSplitGO s).dropLast

/-- Join a batch list, terminating every batch with the separator `GO\n`. -/
def joinGO : List (List Char) → List Char
  | [] => []
  | b :: bs => b ++ 'G' :: 'O' :: '\n' :: joinGO bs

/-- Re-interleave the separator between the pieces of a raw split
(inverse of the splitting, used to state the round-trip property). -/
def recon : List (List Char) → List Char
  | [] => []
  | [b] => b
  | b :: bs => b ++ 'G' :: 'O' :: '\n' :: recon bs

theorem rawSplitGO_ne_nil (s : List Char) : rawSplitGO s ≠ [] := by
  induction s using rawSplitGO.induct with
  | case1 => simp [rawSplitGO]
  | case2 c cs h ih =>
    simp only [rawSplitGO, h, if_true]
    exact List.cons_ne_nil _ _
  | case3 c cs h heq ih =>
    exact absurd heq ih
  | case4 c cs h p ps heq ih =>
    simp only [rawSplitGO, h, if_false, heq]
    exact List.cons_ne_nil _ _

theorem rawSplitGO_no_sep (s : List Char) (h : hasSep s = false) :
    rawSplitGO s = [s] := by
  induction s with
  | nil => simp [rawSplitGO]
  | cons c cs ih =>
    simp only [hasSep, Bool.or_eq_false_iff] at h
    rw [rawSplitGO, if_neg (by simp [h.1]), ih h.2]

/-- A text with no separator splits into zero batches. -/
theorem batches_no_sep (s : List Char) (h : hasSep s = false) :
    batches s = [] := by
  simp [batches, rawSplitGO_no_sep s h]

theorem rawSplitGO_cons_nosep (c : Char) (cs p : List Char) (ps : List (List Char))
    (h : sepHead (c :: cs) = false) (hr : rawSplitGO cs = p :: ps) :
    rawSplitGO (c :: cs) = (c :: p) :: ps := by
  rw [rawSplitGO, if_neg (by simp [h]), hr]

theorem rawSplitGO_head_pre (s p : List Char) (ps : List (List Char))
    (h : rawSplitGO s = p :: ps) : ∃ t, s = p ++ t := by
  induction s using rawSplitGO.induct generalizing p ps with
  | case1 =>
    simp only [rawSplitGO, List.cons.injEq] at h
    exact ⟨[], by simp [← h.1]⟩
  | case2 c cs hsep ih =>
    rw [rawSplitGO, if_pos hsep] at h
    simp only [List.cons.injEq] at h
    exact ⟨c :: cs, by simp [← h.1]⟩
  | case3 c cs hsep heq ih =>
    exact absurd heq (rawSplitGO_ne_nil cs)
  | case4 c cs hsep p' ps' heq ih =>
    rw [rawSplitGO_cons_nosep c cs p' ps' (by simpa using hsep) heq] at h
    simp only [List.cons.injEq] at h
    obtain ⟨t, ht⟩ := ih p' ps' heq
    exact ⟨t, by simp [← h.1, ht]⟩

theorem sepHead_cons_pre (c : Char) (p t : List Char)
    (h : sepHead (c :: (p ++ t)) = false) : sepHead (c :: p) = false := by
  match p with
  | [] => rfl
  | [d] => rfl
  | d :: e :: r => exact h

/-- Every piece of the raw split is separator-free: the split cuts at every
occurrence of `GO\n`. -/
theorem rawSplitGO_pieces_no_sep (s : List Char) :
    ∀ p ∈ rawSplitGO s, hasSep p = false := by
  induction s using rawSplitGO.induct with
  | case1 =>
    intro p hp
    simp only [rawSplitGO, List.mem_singleton] at hp
    simp [hp, hasSep]
  | case2 c cs hsep ih =>
    intro p hp
    rw [rawSplitGO, if_pos hsep] at hp
    rcases List.mem_cons.mp hp with rfl | hp
    · rfl
    · exact ih p hp
  | case3 c cs hsep heq ih =>
    exact absurd heq (rawSplitGO_ne_nil cs)
  | case4 c cs hsep p' ps' heq ih =>
    intro p hp
    rw [rawSplitGO_cons_nosep c cs p' ps' (by simpa using hsep) heq] at hp
    rcases List.mem_cons.mp hp with rfl | hp
    · obtain ⟨t, ht⟩ := rawSplitGO_head_pre cs p' ps' heq
      have hp' : hasSep p' = false := ih p' (by simp [heq])
      have hc : sepHead (c :: p') = false := by
        apply sepHead_cons_pre c p' t
        rw [← ht]
        simpa using hsep
      simp [hasSep, hc, hp']
    · exact ih p (by simp [heq, hp])

theorem rawSplitGO_append (b t : List Char) (hb : hasSep b = false) :
    rawSplitGO (b ++ 'G' :: 'O' :: '\n' :: t) = b :: rawSplitGO t := by
  induction b with
  | nil =>
    rw [List.nil_append, rawSplitGO]
    simp [sepHead]
  | cons c b' ih =>
    simp only [hasSep, Bool.or_eq_false_iff] at hb
    have hs : sepHead (c :: (b' ++ 'G' :: 'O' :: '\n' :: t)) = false := by
      match b', hb.1 with
      | [], _ => simp [sepHead]
      | [d], _ => simp [sepHead]
      | d :: e :: r, h1 => exact h1
    rw [List.cons_append, rawSplitGO, if_neg (by simp [hs]), ih hb.2]

/-- Splitting the separator-terminated concatenation of separator-free
batches recovers exactly those batches. -/
theorem batches_joinGO (bs : List (List Char))
    (h : ∀ b ∈ bs, hasSep b = false) : batches (joinGO bs) = bs := by
  induction bs with
  | nil => simp [joinGO, batches, rawSplitGO]
  | cons b rest ih =>
    rw [joinGO, batches, rawSplitGO_append b (joinGO rest) (h b (by simp)),
      List.dropLast_cons_of_ne_nil (rawSplitGO_ne_nil _)]
    rw [show (rawSplitGO (joinGO rest)).dropLast = batches (joinGO rest) from rfl,
      ih (fun b hb => h b (by simp [hb]))]

theorem recon_cons (b : List Char) (l : List (List Char)) (hl : l ≠ []) :
    recon (b :: l) = b ++ 'G' :: 'O' :: '\n' :: recon l := by
  match l with
  | x :: xs => rfl

theorem drop_two (a b : Char) (l : List Char) : List.drop 2 (a :: b :: l) = l :=
  rfl

theorem rawSplitGO_cons_sep (r : List Char) :
    rawSplitGO ('G' :: 'O' :: '\n' :: r) = [] :: rawSplitGO r := by
  have h : sepHead ('G' :: 'O' :: '\n' :: r) = true := rfl
  rw [rawSplitGO, if_pos h, drop_two]

theorem recon_rawSplitGO (s : List Char) : recon (rawSplitGO s) = s := by
  induction s using rawSplitGO.induct with
  | case1 => simp [rawSplitGO, recon]
  | case2 c cs hsep ih =>
    match cs, hsep, ih with
    | d :: e :: r, hsep, ih =>
      have hsep' := hsep
      simp only [sepHead, Bool.and_eq_true, beq_iff_eq] at hsep'
      obtain ⟨⟨rfl, rfl⟩, rfl⟩ := hsep'
      rw [drop_two] at ih
      rw [rawSplitGO_cons_sep, recon_cons _ _ (rawSplitGO_ne_nil _), ih]
      rfl
  | case3 c cs hsep heq ih =>
    exact absurd heq (rawSplitGO_ne_nil cs)
  | case4 c cs hsep p ps heq ih =>
    rw [rawSplitGO, if_neg (by simp [hsep]), heq]
    rw [heq] at ih
    match p, ps, ih with
    | p, [], ih => simpa [recon] using ih
    | p, q :: qs, ih =>
      rw [recon_cons _ _ (by simp), List.cons_append]
      rw [recon_cons _ _ (by simp)] at ih
      rw [ih]

theorem getLastD_cons₂ (b x : List Char) (xs : List (List Char)) :
    (b :: x :: xs).getLastD [] = (x :: xs).getLastD [] :=
  rfl

theorem recon_eq_joinGO (l : List (List Char)) (hl : l ≠ []) :
    recon l = joinGO l.dropLast ++ l.getLastD [] := by
  induction l with
  | nil => exact absurd rfl hl
  | cons b r ih =>
    match r with
    | [] => simp [recon, joinGO, List.getLastD]
    | x :: xs =>
      rw [recon_cons _ _ (by simp), ih (by simp),
        List.dropLast_cons₂, getLastD_cons₂, joinGO]
      simp [List.append_assoc]

theorem getLastD_mem (l : List (List Char)) (hl : l ≠ []) :
    l.getLastD [] ∈ l := by
  induction l with
  | nil => exact absurd rfl hl
  | cons b r ih =>
    match r with
    | [] => simp [List.getLastD]
    | x :: xs =>
      rw [getLastD_cons₂]
      exact List.mem_cons_of_mem _ (ih (by simp))

/-! ## Claim theorems about the batch splitter -/

/-- C2 (code bug): the split pattern `(?<=)GO\n` has an empty, always-true
lookbehind, so the code cuts at every occurrence of the substring `GO\n` —
also where `GO` merely ends a longer word.  Evaluating the splitter on the
text `AGO\nB` (single line `AGO`, which is not a line consisting exactly of
`GO`) produces one batch `A` instead of the zero batches the spec's
line-oriented rule demands. -/
theorem batches_splits_mid_line : batches ['A', 'G', 'O', '\n', 'B'] = [['A']] := by
  have h1 : rawSplitGO ['B'] = [['B']] := rawSplitGO_no_sep _ rfl
  have h2 : rawSplitGO ['G', 'O', '\n', 'B'] = [[], ['B']] := by
    rw [rawSplitGO_cons_sep, h1]
  have h3 : rawSplitGO ['A', 'G', 'O', '\n', 'B'] = [['A'], ['B']] :=
    rawSplitGO_cons_nosep 'A' ['G', 'O', '\n', 'B'] [] [['B']] rfl h2
  simp [batches, h3]

/-- C3: the splitter always drops the final element of the raw split: a text
with no separator occurrence yields zero batches, and the concatenation of
`n` separator-free batches, each terminated by `GO\n`, splits back into
exactly those `n` batches (batch `i` is exactly the text strictly between
separator `i-1` and separator `i`). -/
theorem batches_drop_last_rule :
    (∀ s : List Char, hasSep s = false → batches s = []) ∧
    (∀ bs : List (List Char), (∀ b ∈ bs, hasSep b = false) →
      batches (joinGO bs) = bs) :=
  ⟨batches_no_sep, batches_joinGO⟩

theorem batches_drop_last_rule_witness :
    batches ['a', 'b'] = [] ∧ batches (joinGO [['a'], ['b']]) = [['a'], ['b']] :=
  ⟨batches_drop_last_rule.1 ['a', 'b'] rfl,
    batches_drop_last_rule.2 [['a'], ['b']] (by decide)⟩

/-- C8: round trip of the splitter.  For a text with at least one separator
occurrence, joining the produced batches with `GO\n` (one final `GO\n`
appended, which is exactly `joinGO`) plus the final raw-split piece
reconstructs the text, and that final piece is separator-free — so the
joined batches are exactly the prefix of the text up to and including the
last separator occurrence, and only the text after it is lost. -/
theorem split_join_round_trip (s : List Char) (h : hasSep s = true) :
    joinGO (batches s) ++ (rawSplitGO s).getLastD [] = s ∧
    hasSep ((rawSplitGO s).getLastD []) = false := by
  constructor
  · rw [show batches s = (rawSplitGO s).dropLast from rfl,
      ← recon_eq_joinGO _ (rawSplitGO_ne_nil s), recon_rawSplitGO]
  · exact rawSplitGO_pieces_no_sep s _ (getLastD_mem _ (rawSplitGO_ne_nil s))

theorem split_join_round_trip_witness :
    joinGO (batches ['a', 'G', 'O', '\n', 'b']) ++
        (rawSplitGO ['a', 'G', 'O', '\n', 'b']).getLastD [] =
      ['a', 'G', 'O', '\n', 'b'] ∧
    hasSep ((rawSplitGO ['a', 'G', 'O', '\n', 'b']).getLastD []) = false :=
  split_join_round_trip ['a', 'G', 'O', '\n', 'b'] rfl

/-! ## Batch executor

`migration_to_db` and `schema_to_db` run
`for i, batch in enumerate(batches): try: connection.execute(...)
except: print(f"Failed on batch {i+1}/...")`.
Whether a given submission raises is decided by the server; we model that
as an oracle `fails` from the 0-based position and batch text to a Bool.
The executor's trace records, in order, one entry per batch: its 1-based
position (as printed on failure), the batch, and whether it failed. -/

def executeBatches (fails : Nat → List Char → Bool) :
    Nat → List (List Char) → List (Nat × List Char × Bool)
  | _, [] => []
  | i, b :: rest => (i + 1, b, fails i b) :: executeBatches fails (i + 1) rest

theorem executeBatches_map_batch (fails : Nat → List Char → Bool)
    (i : Nat) (bs : List (List Char)) :
    (executeBatches fails i bs).map (fun r => r.2.1) = bs := by
  induction bs generalizing i with
  | nil => rfl
  | cons b rest ih => simp [executeBatches, ih]

theorem executeBatches_map_pos (fails : Nat → List Char → Bool)
    (i : Nat) (bs : List (List Char)) :
    (executeBatches fails i bs).map (fun r => r.1) =
      List.range' (i + 1) bs.length := by
  induction bs generalizing i with
  | nil => rfl
  | cons b rest ih => simp [executeBatches, ih, List.range'_succ]

theorem executeBatches_map_fail (fails : Nat → List Char → Bool)
    (i : Nat) (bs : List (List Char)) :
    (executeBatches fails i bs).map (fun r => r.2.2) =
      (List.range bs.length).map (fun k => fails (i + k) (bs.getD k [])) := by
  induction bs generalizing i with
  | nil => rfl
  | cons b rest ih =>
    rw [List.length_cons, List.range_succ_eq_map]
    simp only [executeBatches, List.map_cons, List.map_map]
    rw [ih]
    refine congrArg₂ _ (by simp) (List.map_congr_left ?_)
    intro k _
    simp only [Function.comp_apply, List.getD_cons_succ]
    congr 1
    omega

/-- C4: the Batch Executor attempts every batch exactly once, in the original
order (first conjunct: the trace's batches are exactly the input list), the
reported 1-based positions are `1, 2, ..., n` in order (second conjunct), a
failure is recorded exactly for the batches whose execution raises (third
conjunct), and on the concrete run `[B1, B2(fails), B3]` all three batches
are attempted and exactly one failure — position 2 — is reported (final
conjuncts). -/
theorem execute_batches_contract :
    (∀ (fails : Nat → List Char → Bool) (bs : List (List Char)),
      (executeBatches fails 0 bs).map (fun r => r.2.1) = bs ∧
      (executeBatches fails 0 bs).map (fun r => r.1) = List.range' 1 bs.length ∧
      (executeBatches fails 0 bs).map (fun r => r.2.2) =
        (List.range bs.length).map (fun k => fails k (bs.getD k []))) ∧
    (executeBatches (fun i _ => i == 1) 0 [['1'], ['2'], ['3']]).map
        (fun r => r.2.1) = [['1'], ['2'], ['3']] ∧
    ((executeBatches (fun i _ => i == 1) 0 [['1'], ['2'], ['3']]).filter
        (fun r => r.2.2)).map (fun r => r.1) = [2] := by
  refine ⟨fun fails bs => ⟨executeBatches_map_batch fails 0 bs,
    executeBatches_map_pos fails 0 bs, ?_⟩, by decide, by decide⟩
  rw [executeBatches_map_fail fails 0 bs]
  simp

/-! ## Schema deployer (`schema_to_db`)

For each target, the code walks the target's schema subtree and, for every
file found, opens a connection, issues `DROP DATABASE IF EXISTS [db]` when
`overwrite` is set, and then executes the file's batches — i.e. the drop
statement sits inside the per-file loop.  We record the SQL statements the
target server receives as an event trace. -/

inductive SqlEvent where
  | dropDb (db : List Char)
  | execBatch (b : List Char)
deriving DecidableEq, BEq

/-- Events issued for one schema file (lines 170–186 of the source). -/
def schemaToDbFileEvents (overwrite : Bool) (db : List Char)
    (text : List Char) : List SqlEvent :=
  (if overwrite then [SqlEvent.dropDb db] else []) ++
    (batches text).map SqlEvent.execBatch

/-- Events issued for one target: the per-file events, file by file in walk
order (lines 168–186 of the source). -/
def schemaToDbEvents (overwrite : Bool) (db : List Char)
    (files : List (List Char)) : List SqlEvent :=
  (files.map (schemaToDbFileEvents overwrite db)).flatten

/-- C1 (code bug): with `overwrite=true` and two schema files each holding
one `GO\n`-terminated batch, the target receives
`DROP, batch, DROP, batch` — the unconditional drop is issued once per
file (twice here, not exactly once per target), and the second drop comes
after the first file's batches rather than before any batch. -/
theorem schema_to_db_drop_per_file :
    schemaToDbEvents true ['d'] [['A', '\n', 'G', 'O', '\n'], ['A', '\n', 'G', 'O', '\n']] =
      [SqlEvent.dropDb ['d'], SqlEvent.execBatch ['A', '\n'],
        SqlEvent.dropDb ['d'], SqlEvent.execBatch ['A', '\n']] ∧
    (schemaToDbEvents true ['d'] [['A', '\n', 'G', 'O', '\n'], ['A', '\n', 'G', 'O', '\n']]).count
        (SqlEvent.dropDb ['d']) = 2 := by
  have h0 : rawSplitGO ([] : List Char) = [[]] := by simp [rawSplitGO]
  have h1 : rawSplitGO ['G', 'O', '\n'] = [[], []] := by
    rw [rawSplitGO_cons_sep, h0]
  have h2 : rawSplitGO ['\n', 'G', 'O', '\n'] = [['\n'], []] :=
    rawSplitGO_cons_nosep '\n' ['G', 'O', '\n'] [] [[]] rfl h1
  have h3 : rawSplitGO ['A', '\n', 'G', 'O', '\n'] = [['A', '\n'], []] :=
    rawSplitGO_cons_nosep 'A' ['\n', 'G', 'O', '\n'] ['\n'] [[]] rfl h2
  have hb : batches ['A', '\n', 'G', 'O', '\n'] = [['A', '\n']] := by
    simp [batches, h3]
  have he : schemaToDbEvents true ['d']
      [['A', '\n', 'G', 'O', '\n'], ['A', '\n', 'G', 'O', '\n']] =
      [SqlEvent.dropDb ['d'], SqlEvent.execBatch ['A', '\n'],
        SqlEvent.dropDb ['d'], SqlEvent.execBatch ['A', '\n']] := by
    simp [schemaToDbEvents, schemaToDbFileEvents, hb]
  exact ⟨he, by rw [he]; rfl⟩

/-! ## Schema stager overwrite step (`from_db`)

When `overwrite` is set, `from_db` walks the destination schema subtree for
the target and removes every file whose name ends in `.sql`, before the
staged files are merged in (lines 91–98).  We model the destination subtree
and the staging area as lists of (path, contents) pairs; the walk + remove
is the filter keeping exactly the non-`.sql` files. -/

structure FromDbState where
  destSchema : List (List Char × List Char)
  staged : List (List Char × List Char)

def endsWithSql (name : List Char) : Bool :=
  ['.', 's', 'q', 'l'].isSuffixOf name

/-- The overwrite deletion step: remove each `.sql` file under the
destination schema subtree; the staging area is untouched. -/
def overwriteDeleteStep (s : FromDbState) : FromDbState :=
  { s with destSchema := s.destSchema.filter (fun f => !endsWithSql f.1) }

/-- C5: the overwrite step deletes every pre-existing destination file whose
name ends in `.sql` (none survive), keeps every destination file not ending
in `.sql` exactly as it was (same name, contents and order), and leaves the
staged files untouched. -/
theorem from_db_overwrite_deletes_sql (s : FromDbState) :
    (overwriteDeleteStep s).destSchema.filter (fun f => endsWithSql f.1) = [] ∧
    (overwriteDeleteStep s).destSchema.filter (fun f => !endsWithSql f.1) =
      s.destSchema.filter (fun f => !endsWithSql f.1) ∧
    (overwriteDeleteStep s).staged = s.staged := by
  refine ⟨?_, ?_, rfl⟩
  · simp only [overwriteDeleteStep, List.filter_filter]
    have : ∀ f : List Char × List Char,
        (endsWithSql f.1 && !endsWithSql f.1) = false := by
      intro f
      cases endsWithSql f.1 <;> rfl
    simp [this]
  · simp only [overwriteDeleteStep, List.filter_filter]
    refine List.filter_congr ?_
    intro f _
    cases endsWithSql f.1 <;> rfl

/-! ## Cleanup file loop (`cleanup`, lines 232–257)

`cleanup` iterates over the glob-matched file list; for each file it opens
and reads the file inside `try/except` — on a read error it prints the
error and `return`s, ending the whole command.  Otherwise it rewrites the
contents (regex removal plus the `name_swaps` replacements, modelled
abstractly by `transform`), writes them back, and possibly renames the file
(the `name_swaps` applied to the filename, modelled by `rename`; with the
`overwrite` flag a pre-existing file at the new name is removed first).
The file system is an association list of (name, contents). -/

def lookupContent (fs : List (List Char × List Char)) (f : List Char) : List Char :=
  ((fs.find? (fun e => e.1 == f)).map (fun e => e.2)).getD []

def writeFile (fs : List (List Char × List Char)) (f c : List Char) :
    List (List Char × List Char) :=
  fs.map (fun e => if e.1 == f then (f, c) else e)

def removeFile (fs : List (List Char × List Char)) (f : List Char) :
    List (List Char × List Char) :=
  fs.filter (fun e => !(e.1 == f))

def isFile (fs : List (List Char × List Char)) (f : List Char) : Bool :=
  fs.any (fun e => e.1 == f)

def renameFile (fs : List (List Char × List Char)) (f g : List Char) :
    List (List Char × List Char) :=
  fs.map (fun e => if e.1 == f then (g, e.2) else e)

/-- Processing of a single matched file once its read succeeded
(lines 242–257). -/
def cleanupFileStep (transform rename : List Char → List Char) (ow : Bool)
    (fs : List (List Char × List Char)) (f : List Char) :
    List (List Char × List Char) :=
  let fs1 := writeFile fs f (transform (lookupContent fs f))
  let g := rename f
  if g == f then fs1
  else
    let fs2 := if ow && isFile fs1 g then removeFile fs1 g else fs1
    renameFile fs2 f g

/-- The per-file loop of `cleanup`: processes the matched files in order,
returning the final file system and the list of files actually processed;
a read failure (oracle `readFails`) aborts the whole loop at once. -/
def cleanupFiles (readFails : List Char → Bool)
    (transform rename : List Char → List Char) (ow : Bool) :
    List (List Char) → List (List Char × List Char) →
      List (List Char × List Char) × List (List Char)
  | [], fs => (fs, [])
  | f :: rest, fs =>
    if readFails f then (fs, [])
    else
      let out := cleanupFiles readFails transform rename ow rest
        (cleanupFileStep transform rename ow fs f)
      (out.1, f :: out.2)

theorem cleanupFiles_all_ok (readFails : List Char → Bool)
    (transform rename : List Char → List Char) (ow : Bool)
    (pre : List (List Char)) (fs : List (List Char × List Char))
    (hpre : ∀ f ∈ pre, readFails f = false) :
    (cleanupFiles readFails transform rename ow pre fs).2 = pre := by
  induction pre generalizing fs with
  | nil => rfl
  | cons f rest ih =>
    rw [cleanupFiles, if_neg (by simp [hpre f (by simp)])]
    simpa using ih _ (fun g hg => hpre g (by simp [hg]))

/-- C6: if reading some file in the matched list fails, the whole cleanup
loop aborts at that file: the outcome is exactly the outcome of processing
only the files before it (so no file after the failing one is read,
rewritten or renamed — there is no per-file skip-and-continue), and the
processed-file trace is exactly that prefix. -/
theorem cleanup_read_error_aborts (readFails : List Char → Bool)
    (transform rename : List Char → List Char) (ow : Bool)
    (pre : List (List Char)) (bad : List Char) (post : List (List Char))
    (fs : List (List Char × List Char))
    (hpre : ∀ f ∈ pre, readFails f = false) (hbad : readFails bad = true) :
    cleanupFiles readFails transform rename ow (pre ++ bad :: post) fs =
      cleanupFiles readFails transform rename ow pre fs ∧
    (cleanupFiles readFails transform rename ow (pre ++ bad :: post) fs).2 = pre := by
  have key : cleanupFiles readFails transform rename ow (pre ++ bad :: post) fs =
      cleanupFiles readFails transform rename ow pre fs := by
    induction pre generalizing fs with
    | nil => simp [cleanupFiles, hbad]
    | cons f rest ih =>
      rw [List.cons_append, cleanupFiles, if_neg (by simp [hpre f (by simp)]),
        cleanupFiles, if_neg (by simp [hpre f (by simp)])]
      rw [ih _ (fun g hg => hpre g (by simp [hg]))]
  exact ⟨key, by rw [key]; exact cleanupFiles_all_ok _ _ _ _ _ _ hpre⟩

theorem cleanup_read_error_aborts_witness :
    cleanupFiles (fun f => f == ['b']) id id false
        ([['a']] ++ ['b'] :: [['c']]) [(['a'], ['x']), (['b'], ['y']), (['c'], ['z'])] =
      cleanupFiles (fun f => f == ['b']) id id false
        [['a']] [(['a'], ['x']), (['b'], ['y']), (['c'], ['z'])] ∧
    (cleanupFiles (fun f => f == ['b']) id id false
        ([['a']] ++ ['b'] :: [['c']]) [(['a'], ['x']), (['b'], ['y']), (['c'], ['z'])]).2 =
      [['a']] :=
  cleanup_read_error_aborts (fun f => f == ['b']) id id false
    [['a']] ['b'] [['c']] [(['a'], ['x']), (['b'], ['y']), (['c'], ['z'])]
    (by decide) (by decide)

/-! ## Empty-directory pruning (`cleanup`, lines 259–269)

`cleanup` ends with
`for current_dir, subdirs, files in os.walk(base_dir, topdown=False): ...`:
directories are visited bottom-up (all of a directory's subtree before the
directory itself, children left to right), and a directory is removed iff
it has no files and every one of its subdirectories — as listed when the
walk scanned it, i.e. the original tree — is already in the `deleted` set.
We model the file tree as an inductive tree and the visit as a recursion
threading the `deleted` list exactly in walk order; a directory's full path
is the list of name components from `base_dir` (the walk's start) down. -/

inductive DirTree where
  | node (dname : List Char) (files : List (List Char)) (subdirs : List DirTree)

def DirTree.dname : DirTree → List Char
  | .node n _ _ => n

/-- The full path of the root of `t` when `t` hangs below `path`. -/
def rootPath (path : List (List Char)) (t : DirTree) : List (List Char) :=
  path ++ [t.dname]

mutual
/-- Visit of the subtree `t` below `path`: children first (left to right),
then `t`'s own directory, which is removed — appended to the deleted
list — iff it has no files and all of its subdirectories' paths are in the
deleted list accumulated so far. -/
def pruneDir (deleted : List (List (List Char))) (path : List (List Char)) :
    DirTree → List (List (List Char))
  | .node name files subdirs =>
    let p := path ++ [name]
    let d := pruneDirs deleted p subdirs
    if files.isEmpty && subdirs.all (fun t => decide ((p ++ [t.dname]) ∈ d)) then
      p :: d
    else d

/-- Visit of a list of sibling subtrees, left to right, threading the
deleted list. -/
def pruneDirs (deleted : List (List (List Char))) (path : List (List Char)) :
    List DirTree → List (List (List Char))
  | [] => deleted
  | t :: ts => pruneDirs (pruneDir deleted path t) path ts
end

mutual
/-- Does the whole subtree contain no file at all? -/
def fileFree : DirTree → Bool
  | .node _ files subdirs => files.isEmpty && fileFreeL subdirs

def fileFreeL : List DirTree → Bool
  | [] => true
  | t :: ts => fileFree t && fileFreeL ts
end

mutual
/-- The paths of all directories of the subtree whose subtree is file-free
(the directories the bottom-up pass removes). -/
def emptyPaths (path : List (List Char)) : DirTree → List (List (List Char))
  | .node name files subdirs =>
    let p := path ++ [name]
    (if files.isEmpty && fileFreeL subdirs then [p] else []) ++ emptyPathsL p subdirs

def emptyPathsL (path : List (List Char)) : List DirTree → List (List (List Char))
  | [] => []
  | t :: ts => emptyPaths path t ++ emptyPathsL path ts
end

mutual
/-- The paths of all directories of the subtree. -/
def dirPaths (path : List (List Char)) : DirTree → List (List (List Char))
  | .node name _ subdirs =>
    (path ++ [name]) :: dirPathsL (path ++ [name]) subdirs

def dirPathsL (path : List (List Char)) : List DirTree → List (List (List Char))
  | [] => []
  | t :: ts => dirPaths path t ++ dirPathsL path ts
end

theorem all_congr_mem {α : Type} (l : List α) (f g : α → Bool)
    (h : ∀ a ∈ l, f a = g a) : l.all f = l.all g := by
  induction l with
  | nil => rfl
  | cons a l ih =>
    simp only [List.all_cons, h a (by simp)]
    rw [ih (fun b hb => h b (by simp [hb]))]

theorem fileFreeL_eq_all (ts : List DirTree) : fileFreeL ts = ts.all fileFree := by
  induction ts with
  | nil => rfl
  | cons t ts ih => simp [fileFreeL, ih]

theorem mem_emptyPathsL (p : List (List Char)) (ts : List DirTree)
    (q : List (List Char)) :
    q ∈ emptyPathsL p ts ↔ ∃ t ∈ ts, q ∈ emptyPaths p t := by
  induction ts with
  | nil => simp [emptyPathsL]
  | cons t ts ih => simp [emptyPathsL, ih]

theorem mem_dirPathsL (p : List (List Char)) (ts : List DirTree)
    (q : List (List Char)) :
    q ∈ dirPathsL p ts ↔ ∃ t ∈ ts, q ∈ dirPaths p t := by
  induction ts with
  | nil => simp [dirPathsL]
  | cons t ts ih => simp [dirPathsL, ih]

theorem rootPath_mem_dirPaths (p : List (List Char)) (t : DirTree) :
    rootPath p t ∈ dirPaths p t := by
  match t with
  | .node name files subdirs => simp [dirPaths, rootPath, DirTree.dname]

mutual
theorem emptyPaths_sub (p : List (List Char)) (t : DirTree) :
    ∀ q ∈ emptyPaths p t, q ∈ dirPaths p t := by
  match t with
  | .node name files subdirs =>
    intro q hq
    simp only [emptyPaths, List.mem_append] at hq
    simp only [dirPaths, List.mem_cons]
    rcases hq with hq | hq
    · left
      by_cases hc : (files.isEmpty && fileFreeL subdirs) = true
      · simp [hc] at hq
        exact hq
      · simp [hc] at hq
    · right
      exact emptyPathsL_sub _ subdirs q hq

theorem emptyPathsL_sub (p : List (List Char)) (ts : List DirTree) :
    ∀ q ∈ emptyPathsL p ts, q ∈ dirPathsL p ts := by
  match ts with
  | [] => simp [emptyPathsL]
  | t :: ts =>
    intro q hq
    simp only [emptyPathsL, List.mem_append] at hq
    simp only [dirPathsL, List.mem_append]
    rcases hq with hq | hq
    · exact Or.inl (emptyPaths_sub p t q hq)
    · exact Or.inr (emptyPathsL_sub p ts q hq)
end

theorem fileFree_root_emptyPaths (p : List (List Char)) (t : DirTree)
    (h : fileFree t = true) : rootPath p t ∈ emptyPaths p t := by
  match t with
  | .node name files subdirs =>
    rw [fileFree] at h
    simp [emptyPaths, rootPath, DirTree.dname, h]

theorem root_emptyPaths_fileFree (p : List (List Char)) (t : DirTree)
    (hnd : (dirPaths p t).Nodup) (h : rootPath p t ∈ emptyPaths p t) :
    fileFree t = true := by
  match t with
  | .node name files subdirs =>
    simp only [emptyPaths, rootPath, DirTree.dname, List.mem_append] at h
    rcases h with h | h
    · by_cases hc : (files.isEmpty && fileFreeL subdirs) = true
      · rw [fileFree]
        exact hc
      · simp [hc] at h
    · exfalso
      have hsub := emptyPathsL_sub _ subdirs _ h
      simp only [dirPaths, List.nodup_cons] at hnd
      exact hnd.1 hsub

theorem nodup_dirPaths_of_mem (p : List (List Char)) (ts : List DirTree)
    (t' : DirTree) (hnd : (dirPathsL p ts).Nodup) (ht : t' ∈ ts) :
    (dirPaths p t').Nodup := by
  induction ts with
  | nil => simp at ht
  | cons t0 ts ih =>
    rw [dirPathsL] at hnd
    rcases List.mem_cons.mp ht with rfl | ht
    · exact hnd.of_append_left
    · exact ih hnd.of_append_right ht

theorem emptyPathsL_chunk (p : List (List Char)) (ts : List DirTree)
    (t' : DirTree) (q : List (List Char)) (hnd : (dirPathsL p ts).Nodup)
    (ht : t' ∈ ts) (hq : q ∈ dirPaths p t') (he : q ∈ emptyPathsL p ts) :
    q ∈ emptyPaths p t' := by
  induction ts with
  | nil => simp at ht
  | cons t0 ts ih =>
    rw [dirPathsL] at hnd
    rw [List.nodup_append] at hnd
    rw [emptyPathsL, List.mem_append] at he
    rcases List.mem_cons.mp ht with rfl | ht
    · rcases he with he | he
      · exact he
      · exact absurd (emptyPathsL_sub _ _ _ he) (fun hmem => hnd.2.2 hq hmem)
    · rcases he with he | he
      · exact absurd (mem_dirPathsL p ts q |>.mpr ⟨t', ht, hq⟩)
          (fun hmem => hnd.2.2 (emptyPaths_sub _ _ _ he) hmem)
      · exact ih hnd.2.1 ht he

theorem pruneDir_eq (deleted : List (List (List Char)))
    (path : List (List Char)) (name : List Char) (files : List (List Char))
    (subdirs : List DirTree) :
    pruneDir deleted path (.node name files subdirs) =
      if files.isEmpty && subdirs.all (fun t =>
          decide ((path ++ [name] ++ [t.dname]) ∈
            pruneDirs deleted (path ++ [name]) subdirs)) then
        (path ++ [name]) :: pruneDirs deleted (path ++ [name]) subdirs
      else pruneDirs deleted (path ++ [name]) subdirs :=
  rfl

theorem emptyPaths_eq (path : List (List Char)) (name : List Char)
    (files : List (List Char)) (subdirs : List DirTree) :
    emptyPaths path (.node name files subdirs) =
      (if files.isEmpty && fileFreeL subdirs then [path ++ [name]] else []) ++
        emptyPathsL (path ++ [name]) subdirs :=
  rfl

mutual
theorem mem_pruneDir (t : DirTree) (path : List (List Char))
    (deleted : List (List (List Char))) (hnd : (dirPaths path t).Nodup)
    (hdis : ∀ r ∈ dirPaths path t, r ∉ deleted) (q : List (List Char)) :
    q ∈ pruneDir deleted path t ↔ q ∈ emptyPaths path t ∨ q ∈ deleted := by
  match t with
  | .node name files subdirs =>
    rw [dirPaths, List.nodup_cons] at hnd
    have hdisL : ∀ r ∈ dirPathsL (path ++ [name]) subdirs, r ∉ deleted := by
      intro r hr
      refine hdis r ?_
      rw [dirPaths]
      exact List.mem_cons_of_mem _ hr
    have hd := mem_pruneDirs subdirs (path ++ [name]) deleted hnd.2 hdisL
    have hcond : (subdirs.all fun t' =>
        decide ((path ++ [name] ++ [t'.dname]) ∈
          pruneDirs deleted (path ++ [name]) subdirs)) = fileFreeL subdirs := by
      rw [fileFreeL_eq_all]
      apply all_congr_mem
      intro t' ht'
      have hrootmem : (path ++ [name] ++ [t'.dname]) ∈ dirPathsL (path ++ [name]) subdirs :=
        (mem_dirPathsL _ _ _).mpr ⟨t', ht', rootPath_mem_dirPaths _ t'⟩
      by_cases hf : fileFree t' = true
      · rw [hf, decide_eq_true]
        refine (hd _).mpr (Or.inl ((mem_emptyPathsL _ _ _).mpr ⟨t', ht', ?_⟩))
        exact fileFree_root_emptyPaths (path ++ [name]) t' hf
      · rw [Bool.eq_false_iff.mpr hf, decide_eq_false]
        intro hmem
        rcases (hd _).mp hmem with hm | hm
        · have := emptyPathsL_chunk (path ++ [name]) subdirs t' _ hnd.2 ht'
            (rootPath_mem_dirPaths _ t') hm
          exact hf (root_emptyPaths_fileFree _ t'
            (nodup_dirPaths_of_mem _ subdirs t' hnd.2 ht') this)
        · exact hdisL _ hrootmem hm
    rw [pruneDir_eq, emptyPaths_eq]
    by_cases hc : files.isEmpty = true
    · rw [hcond]
      by_cases hff : fileFreeL subdirs = true
      · rw [hc, hff]
        simp only [Bool.and_self, if_true, List.mem_cons, List.singleton_append,
          List.mem_cons, hd q]
        tauto
      · rw [hc, Bool.eq_false_iff.mpr hff]
        simp only [Bool.and_false, Bool.true_and, Bool.false_eq_true, if_false,
          List.nil_append, hd q]
    · rw [Bool.eq_false_iff.mpr hc]
      simp only [Bool.false_and, Bool.false_eq_true, if_false, List.nil_append, hd q]

theorem mem_pruneDirs (ts : List DirTree) (path : List (List Char))
    (deleted : List (List (List Char))) (hnd : (dirPathsL path ts).Nodup)
    (hdis : ∀ r ∈ dirPathsL path ts, r ∉ deleted) (q : List (List Char)) :
    q ∈ pruneDirs deleted path ts ↔ q ∈ emptyPathsL path ts ∨ q ∈ deleted := by
  match ts with
  | [] => simp [pruneDirs, emptyPathsL]
  | t :: ts =>
    rw [dirPathsL, List.nodup_append] at hnd
    have hdis1 : ∀ r ∈ dirPaths path t, r ∉ deleted := by
      intro r hr
      refine hdis r ?_
      rw [dirPathsL]
      exact List.mem_append_left _ hr
    have hdis2 : ∀ r ∈ dirPathsL path ts, r ∉ deleted := by
      intro r hr
      refine hdis r ?_
      rw [dirPathsL]
      exact List.mem_append_right _ hr
    have hd1 := mem_pruneDir t path deleted hnd.1 hdis1
    have hside : ∀ r ∈ dirPathsL path ts, r ∉ pruneDir deleted path t := by
      intro r hr hmem
      rcases (hd1 r).mp hmem with hm | hm
      · exact hnd.2.2 (emptyPaths_sub _ _ _ hm) hr
      · exact hdis2 r hr hm
    rw [pruneDirs, mem_pruneDirs ts path (pruneDir deleted path t) hnd.2.1 hside q,
      emptyPathsL]
    simp only [List.mem_append, hd1 q]
    tauto
end

mutual
theorem subset_pruneDir (deleted : List (List (List Char)))
    (path : List (List Char)) (t : DirTree) :
    ∀ q ∈ deleted, q ∈ pruneDir deleted path t := by
  match t with
  | .node name files subdirs =>
    intro q hq
    rw [pruneDir_eq]
    have hmem := subset_pruneDirs deleted (path ++ [name]) subdirs q hq
    by_cases hc : (files.isEmpty && subdirs.all fun t' =>
        decide ((path ++ [name] ++ [t'.dname]) ∈
          pruneDirs deleted (path ++ [name]) subdirs)) = true
    · rw [if_pos hc]
      exact List.mem_cons_of_mem _ hmem
    · rw [if_neg hc]
      exact hmem

theorem subset_pruneDirs (deleted : List (List (List Char)))
    (path : List (List Char)) (ts : List DirTree) :
    ∀ q ∈ deleted, q ∈ pruneDirs deleted path ts := by
  match ts with
  | [] => exact fun q hq => hq
  | t :: ts =>
    intro q hq
    rw [pruneDirs]
    exact subset_pruneDirs _ path ts q (subset_pruneDir deleted path t q hq)
end

mutual
theorem fileFree_mem_pruneDir (deleted : List (List (List Char)))
    (path : List (List Char)) (t : DirTree) (h : fileFree t = true) :
    rootPath path t ∈ pruneDir deleted path t := by
  match t with
  | .node name files subdirs =>
    rw [fileFree, Bool.and_eq_true] at h
    rw [show rootPath path (.node name files subdirs) = path ++ [name] from rfl,
      pruneDir_eq, if_pos]
    · exact List.mem_cons_self _ _
    · rw [Bool.and_eq_true, List.all_eq_true]
      refine ⟨h.1, fun t' ht' => decide_eq_true ?_⟩
      exact fileFree_mem_pruneDirs deleted (path ++ [name]) subdirs h.2 t' ht'

theorem fileFree_mem_pruneDirs (deleted : List (List (List Char)))
    (path : List (List Char)) (ts : List DirTree) (h : fileFreeL ts = true) :
    ∀ t' ∈ ts, rootPath path t' ∈ pruneDirs deleted path ts := by
  match ts with
  | [] => simp
  | t :: ts =>
    rw [fileFreeL, Bool.and_eq_true] at h
    intro t' ht'
    rw [pruneDirs]
    rcases List.mem_cons.mp ht' with rfl | ht'
    · exact subset_pruneDirs _ path ts _ (fileFree_mem_pruneDir deleted path t' h.1)
    · exact fileFree_mem_pruneDirs _ path ts h.2 t' ht'
end

/-- The directory tree `{d1/d2/ (empty), d1/file.txt}` of the spec's
pruning example. -/
def exampleTree : DirTree :=
  .node ['d', '1'] [['f', 'i', 'l', 'e', '.', 't', 'x', 't']]
    [.node ['d', '2'] [] []]

/-- C7: the bottom-up pass removes a directory iff its whole subtree
contains no files: since a directory is removed exactly when it has no
files of its own and every subdirectory is already in the deleted set (the
rule the code applies at each visit), the removed set is exactly
`emptyPaths` — the directories whose subtrees are file-free.  The premise
asks the directory paths to be distinct, which holds for any real file
tree (sibling names are unique).  On the spec's example tree
`{d1/d2/ (empty), d1/file.txt}`, `d2` is removed and `d1` is kept. -/
theorem prune_removes_iff_file_free :
    (∀ (t : DirTree) (base q : List (List Char)), (dirPaths base t).Nodup →
      (q ∈ pruneDir [] base t ↔ q ∈ emptyPaths base t)) ∧
    pruneDir [] [] exampleTree = [[['d', '1'], ['d', '2']]] := by
  constructor
  · intro t base q hnd
    rw [mem_pruneDir t base [] hnd (by simp) q]
    simp
  · decide

theorem prune_removes_iff_file_free_witness :
    ([['d', '1'], ['d', '2']] ∈ pruneDir [] [] exampleTree ↔
      [['d', '1'], ['d', '2']] ∈ emptyPaths [] exampleTree) ∧
    ([['d', '1']] ∈ pruneDir [] [] exampleTree ↔
      [['d', '1']] ∈ emptyPaths [] exampleTree) :=
  ⟨prune_removes_iff_file_free.1 exampleTree [] _ (by decide),
    prune_removes_iff_file_free.1 exampleTree [] _ (by decide)⟩

/-- C10: the bottom-up walk starts at `base_dir` itself, so when the whole
tree under (and including) `base_dir` contains no files, `base_dir`'s own
directory is removed as well — pruning is not restricted to strict
subdirectories of `base_dir`. -/
theorem prune_removes_base_dir (t : DirTree) (base : List (List Char))
    (h : fileFree t = true) : rootPath base t ∈ pruneDir [] base t :=
  fileFree_mem_pruneDir [] base t h

theorem prune_removes_base_dir_witness :
    rootPath [] (DirTree.node ['b'] [] [.node ['d'] [] []]) ∈
      pruneDir [] [] (DirTree.node ['b'] [] [.node ['d'] [] []]) :=
  prune_removes_base_dir (DirTree.node ['b'] [] [.node ['d'] [] []]) []
    (by decide)

/-! ## slugify (lines 15–29)

`slugify` normalizes (NFKD + `encode('ascii','ignore')` when
`allow_unicode=False`, NFKC otherwise), lowercases, deletes `[^\w\s-]`,
collapses `[-\s]+` runs to a single `-`, and strips leading/trailing `-`
and `_`.  After the ASCII fold the text is pure ASCII, so the later stages
only ever see ASCII characters; we model them with the ASCII meanings of
`\w` (`[A-Za-z0-9_]`), `\s` (codes 9–13 and 32) and `str.lower`.  The fold
itself (NFKD plus the ignoring ASCII encode) lives in the external
`unicodedata`/codec libraries; it is kept abstract as a function `fold`
with its two relevant properties: its output is ASCII, and it is the
identity on ASCII input (ASCII characters are NFKD-invariant and survive
the encode).  Within ASCII, Python's Unicode `\s` matches codes 9–13, the
information separators 28–31 and the space 32; `\w` matches exactly
`[A-Za-z0-9_]`; `str.lower` shifts exactly `A`–`Z`. -/

def allAscii (s : List Char) : Bool :=
  s.all (fun c => decide (c.toNat < 128))

/-- `str.lower()` on ASCII: only `A`–`Z` (codes 65–90) shift by 32. -/
def asciiLowerChar (c : Char) : Char :=
  if 65 ≤ c.toNat ∧ c.toNat ≤ 90 then Char.ofNat (c.toNat + 32) else c

/-- ASCII `\w`: letters, digits, underscore (code 95). -/
def isWordA (c : Char) : Bool :=
  (97 ≤ c.toNat && c.toNat ≤ 122) || (65 ≤ c.toNat && c.toNat ≤ 90) ||
    (48 ≤ c.toNat && c.toNat ≤ 57) || c.toNat == 95

/-- Python's `\s` restricted to ASCII: tab (9), newline (10), vertical tab
(11), form feed (12), carriage return (13), the information separators
FS/GS/RS/US (28–31) and the space (32). -/
def isSpaceA (c : Char) : Bool :=
  c.toNat == 32 || c.toNat == 9 || c.toNat == 10 || c.toNat == 11 ||
    c.toNat == 12 || c.toNat == 13 || c.toNat == 28 || c.toNat == 29 ||
    c.toNat == 30 || c.toNat == 31

/-- The characters `re.sub(r'[^\w\s-]', '', ·)` keeps (45 is `-`). -/
def keepA (c : Char) : Bool :=
  isWordA c || isSpaceA c || c.toNat == 45

/-- The character class `[-\s]` of the run-collapsing substitution. -/
def isDashSpace (c : Char) : Bool :=
  c.toNat == 45 || isSpaceA c

/-- The characters `.strip('-_')` removes at the ends. -/
def isStripChar (c : Char) : Bool :=
  c.toNat == 45 || c.toNat == 95

/-- A character allowed in a finished slug: lowercase letter, digit,
underscore or hyphen. -/
def goodChar (c : Char) : Bool :=
  (97 ≤ c.toNat && c.toNat ≤ 122) || (48 ≤ c.toNat && c.toNat ≤ 57) ||
    c.toNat == 95 || c.toNat == 45

/-- `re.sub(r'[-\s]+', '-', ·)`: every maximal run of dashes/whitespace
becomes a single `-` (emitted at the end of the run). -/
def collapseRuns : List Char → List Char
  | [] => []
  | [c] => if isDashSpace c then ['-'] else [c]
  | c :: d :: cs =>
    if isDashSpace c then
      if isDashSpace d then collapseRuns (d :: cs)
      else '-' :: collapseRuns (d :: cs)
    else c :: collapseRuns (d :: cs)

/-- `str.strip('-_')`: drop the matching characters from both ends. -/
def stripEnds (s : List Char) : List Char :=
  ((s.dropWhile isStripChar).reverse.dropWhile isStripChar).reverse

/-- `slugify` with `allow_unicode=False`, parameterized by the external
ASCII fold (NFKD + `encode('ascii','ignore').decode('ascii')`):
fold, then lowercase, then delete `[^\w\s-]`, then collapse `[-\s]+` runs,
then strip `-_` from the ends. -/
def slugifyF (fold : List Char → List Char) (s : List Char) : List Char :=
  stripEnds (collapseRuns (((fold s).map asciiLowerChar).filter keepA))

/-- A concrete fold with the two properties of the real one: keep exactly
the ASCII characters. -/
def asciiFilter (s : List Char) : List Char :=
  s.filter (fun c => decide (c.toNat < 128))

/-- Adjacent characters never form a `[-\s]` run. -/
def NoRunPair (a b : Char) : Prop :=
  isDashSpace a = false ∨ isDashSpace b = false

theorem char_eq_of_toNat (c d : Char) (h : c.toNat = d.toNat) : c = d := by
  have h1 := Char.ofNat_toNat c
  rw [h, Char.ofNat_toNat] at h1
  exact h1.symm

theorem asciiLowerChar_toNat (c : Char) (h1 : 65 ≤ c.toNat) (h2 : c.toNat ≤ 90) :
    (asciiLowerChar c).toNat = c.toNat + 32 := by
  rw [asciiLowerChar, if_pos ⟨h1, h2⟩]
  generalize c.toNat = n at h1 h2 ⊢
  interval_cases n <;> decide

theorem asciiLowerChar_fix (c : Char) (h : ¬(65 ≤ c.toNat ∧ c.toNat ≤ 90)) :
    asciiLowerChar c = c := by
  rw [asciiLowerChar, if_neg h]

theorem collapseRuns_head (d : Char) (cs : List Char)
    (h : isDashSpace d = false) :
    collapseRuns (d :: cs) = d :: (collapseRuns (d :: cs)).tail := by
  match cs with
  | [] => simp [collapseRuns, h]
  | e :: cs' => simp [collapseRuns, h]

theorem collapseRuns_mem (x : List Char) :
    ∀ c ∈ collapseRuns x, (c ∈ x ∧ isDashSpace c = false) ∨ c = '-' := by
  induction x using collapseRuns.induct with
  | case1 => simp [collapseRuns]
  | case2 c h => simp [collapseRuns, h]
  | case3 c h =>
    simp only [collapseRuns, if_neg h]
    intro e he
    rw [List.mem_singleton] at he
    exact Or.inl ⟨by simp [he], by simp [he]; simpa using h⟩
  | case4 c d cs h1 h2 ih =>
    simp only [collapseRuns, h1, h2, if_true]
    intro e he
    rcases ih e he with ⟨hm, hd⟩ | hm
    · exact Or.inl ⟨by simp [hm], hd⟩
    · exact Or.inr hm
  | case5 c d cs h1 h2 ih =>
    simp only [collapseRuns, h1, if_pos, if_neg h2, if_true]
    intro e he
    rcases List.mem_cons.mp he with rfl | he
    · exact Or.inr rfl
    · rcases ih e he with ⟨hm, hd⟩ | hm
      · exact Or.inl ⟨by simp [hm], hd⟩
      · exact Or.inr hm
  | case6 c d cs h1 ih =>
    simp only [collapseRuns, if_neg h1]
    intro e he
    rcases List.mem_cons.mp he with rfl | he
    · exact Or.inl ⟨by simp, by simpa using h1⟩
    · rcases ih e he with ⟨hm, hd⟩ | hm
      · exact Or.inl ⟨by simp [hm], hd⟩
      · exact Or.inr hm

theorem collapseRuns_chain (x : List Char) :
    List.Chain' NoRunPair (collapseRuns x) := by
  induction x using collapseRuns.induct with
  | case1 => simp [collapseRuns]
  | case2 c h => simp [collapseRuns, h]
  | case3 c h => simp [collapseRuns, h]
  | case4 c d cs h1 h2 ih => simpa [collapseRuns, h1, h2] using ih
  | case5 c d cs h1 h2 ih =>
    simp only [collapseRuns, h1, if_neg h2, if_true]
    rw [collapseRuns_head d cs (by simpa using h2)] at ih ⊢
    rw [List.chain'_cons]
    exact ⟨Or.inr (by simpa using h2), ih⟩
  | case6 c d cs h1 ih =>
    simp only [collapseRuns, if_neg h1]
    rw [List.chain'_cons']
    exact ⟨fun b _ => Or.inl (by simpa using h1), ih⟩

theorem collapseRuns_fix (x : List Char)
    (hsp : ∀ c ∈ x, isSpaceA c = false)
    (hch : List.Chain' NoRunPair x) : collapseRuns x = x := by
  induction x using collapseRuns.induct with
  | case1 => rfl
  | case2 c h =>
    have hc : c = '-' := by
      have := hsp c (by simp)
      rw [isDashSpace, this, Bool.or_false, Nat.beq_eq_true_eq] at h
      exact char_eq_of_toNat c '-' (by rw [h]; rfl)
    simp [collapseRuns, h, hc]
  | case3 c h => simp [collapseRuns, h]
  | case4 c d cs h1 h2 ih =>
    rw [List.chain'_cons] at hch
    rcases hch.1 with hf | hf
    · rw [h1] at hf
      exact absurd hf (by simp)
    · rw [h2] at hf
      exact absurd hf (by simp)
  | case5 c d cs h1 h2 ih =>
    have hc : c = '-' := by
      have := hsp c (by simp)
      rw [isDashSpace, this, Bool.or_false, Nat.beq_eq_true_eq] at h1
      exact char_eq_of_toNat c '-' (by rw [h1]; rfl)
    rw [List.chain'_cons] at hch
    simp only [collapseRuns, h1, if_neg h2, if_true]
    rw [ih (fun e he => hsp e (by simp [he])) hch.2, hc]
  | case6 c d cs h1 ih =>
    rw [List.chain'_cons] at hch
    simp only [collapseRuns, if_neg h1]
    rw [ih (fun e he => hsp e (by simp [he])) hch.2]

theorem dropWhile_head_false (p : Char → Bool) (l : List Char) :
    ∀ c, (l.dropWhile p).head? = some c → p c = false := by
  induction l with
  | nil => intro c hc; simp at hc
  | cons a l ih =>
    intro c hc
    by_cases ha : p a = true
    · rw [List.dropWhile_cons_of_pos ha] at hc
      exact ih c hc
    · rw [List.dropWhile_cons_of_neg ha] at hc
      simp only [List.head?_cons, Option.some.injEq] at hc
      rw [← hc]
      simpa using ha

theorem dropWhile_eq_self_of (p : Char → Bool) (l : List Char)
    (h : ∀ c, l.head? = some c → p c = false) : l.dropWhile p = l := by
  match l with
  | [] => rfl
  | c :: cs => rw [List.dropWhile_cons_of_neg (by simp [h c rfl])]

theorem stripEnds_sub (x : List Char) : ∀ c ∈ stripEnds x, c ∈ x := by
  intro c hc
  rw [stripEnds, List.mem_reverse] at hc
  have h1 := (List.dropWhile_suffix isStripChar).subset hc
  rw [List.mem_reverse] at h1
  exact (List.dropWhile_suffix isStripChar).subset h1

theorem chain'_rev (l : List Char) (h : List.Chain' NoRunPair l) :
    List.Chain' NoRunPair l.reverse := by
  rw [List.chain'_reverse]
  exact h.imp (fun a b hab => hab.symm)

theorem stripEnds_chain (x : List Char) (h : List.Chain' NoRunPair x) :
    List.Chain' NoRunPair (stripEnds x) := by
  rw [stripEnds]
  apply chain'_rev
  refine List.Chain'.suffix ?_ (List.dropWhile_suffix isStripChar)
  apply chain'_rev
  exact h.suffix (List.dropWhile_suffix isStripChar)

theorem stripEnds_last (x : List Char) :
    ∀ c, (stripEnds x).getLast? = some c → isStripChar c = false := by
  intro c hc
  rw [stripEnds, List.getLast?_reverse] at hc
  exact dropWhile_head_false isStripChar _ c hc

theorem stripEnds_head (x : List Char) :
    ∀ c, (stripEnds x).head? = some c → isStripChar c = false := by
  intro c hc
  rw [stripEnds, List.head?_reverse] at hc
  set z := (x.dropWhile isStripChar).reverse with hz
  obtain ⟨w, hw⟩ := List.dropWhile_suffix (l := z) isStripChar
  have hne : z.dropWhile isStripChar ≠ [] := by
    intro hnil
    rw [hnil] at hc
    simp at hc
  have hlast : z.getLast? = (z.dropWhile isStripChar).getLast? := by
    conv_lhs => rw [← hw]
    exact List.getLast?_append_of_ne_nil _ hne
  rw [← hlast, hz, List.getLast?_reverse] at hc
  exact dropWhile_head_false isStripChar _ c hc

theorem stripEnds_fix (x : List Char)
    (h1 : ∀ c, x.head? = some c → isStripChar c = false)
    (h2 : ∀ c, x.getLast? = some c → isStripChar c = false) :
    stripEnds x = x := by
  rw [stripEnds, dropWhile_eq_self_of isStripChar x h1,
    dropWhile_eq_self_of isStripChar x.reverse
      (fun c hc => h2 c (by rwa [List.head?_reverse] at hc)),
    List.reverse_reverse]

theorem stripEnds_idem (x : List Char) :
    stripEnds (stripEnds x) = stripEnds x :=
  stripEnds_fix _ (stripEnds_head x) (stripEnds_last x)

theorem map_eq_self_of {α : Type} (l : List α) (f : α → α)
    (h : ∀ a ∈ l, f a = a) : l.map f = l := by
  induction l with
  | nil => rfl
  | cons a l ih => rw [List.map_cons, h a (by simp), ih (fun b hb => h b (by simp [hb]))]

theorem goodChar_of (c : Char) (hk : keepA c = true)
    (hnu : ¬(65 ≤ c.toNat ∧ c.toNat ≤ 90)) (hnd : isDashSpace c = false) :
    goodChar c = true := by
  simp only [keepA, isWordA, isSpaceA, isDashSpace, goodChar, Bool.or_eq_true,
    Bool.and_eq_true, decide_eq_true_eq, Nat.beq_eq_true_eq,
    Bool.or_eq_false_iff, beq_eq_false_iff_ne, ne_eq] at hk hnd ⊢
  omega

theorem slugifyF_chars (fold : List Char → List Char) (s : List Char) :
    ∀ c ∈ slugifyF fold s, goodChar c = true := by
  intro c hc
  rw [slugifyF] at hc
  have hc3 := stripEnds_sub _ c hc
  rcases collapseRuns_mem _ c hc3 with ⟨hm, hnd⟩ | rfl
  · rw [List.mem_filter] at hm
    obtain ⟨hm1, hk⟩ := hm
    rw [List.mem_map] at hm1
    obtain ⟨a, ha, rfl⟩ := hm1
    by_cases hup : 65 ≤ a.toNat ∧ a.toNat ≤ 90
    · have ht := asciiLowerChar_toNat a hup.1 hup.2
      simp only [goodChar, Bool.or_eq_true, Bool.and_eq_true, decide_eq_true_eq,
        Nat.beq_eq_true_eq, ht]
      omega
    · rw [asciiLowerChar_fix a hup] at hk hnd ⊢
      exact goodChar_of a hk hup hnd
  · decide

/-- C9 (amended): with `allow_unicode=False` — for any fold with the two
properties of NFKD + ignoring-ASCII-encode (its output is ASCII; ASCII
input passes through unchanged) — `slugify` is idempotent on every input,
and its output consists only of lowercase ASCII word characters and
hyphens, with no two adjacent `[-\s]` characters (so only single hyphens)
and no leading or trailing hyphen or underscore. -/
theorem slugify_ascii_idempotent (fold : List Char → List Char)
    (hout : ∀ s, allAscii (fold s) = true)
    (hid : ∀ s, allAscii s = true → fold s = s) (s : List Char) :
    slugifyF fold (slugifyF fold s) = slugifyF fold s ∧
    (∀ c ∈ slugifyF fold s, goodChar c = true) ∧
    List.Chain' NoRunPair (slugifyF fold s) ∧
    (∀ c, (slugifyF fold s).head? = some c → isStripChar c = false) ∧
    (∀ c, (slugifyF fold s).getLast? = some c → isStripChar c = false) := by
  have hchars := slugifyF_chars fold s
  have hchain : List.Chain' NoRunPair (slugifyF fold s) :=
    stripEnds_chain _ (collapseRuns_chain _)
  have hascii : allAscii (slugifyF fold s) = true := by
    rw [allAscii, List.all_eq_true]
    intro c hcm
    have hg := hchars c hcm
    simp only [goodChar, Bool.or_eq_true, Bool.and_eq_true, decide_eq_true_eq,
      Nat.beq_eq_true_eq] at hg
    simp only [decide_eq_true_eq]
    omega
  have hmap : (slugifyF fold s).map asciiLowerChar = slugifyF fold s := by
    apply map_eq_self_of
    intro a ha
    apply asciiLowerChar_fix
    have hg := hchars a ha
    simp only [goodChar, Bool.or_eq_true, Bool.and_eq_true, decide_eq_true_eq,
      Nat.beq_eq_true_eq] at hg
    omega
  have hfil : (slugifyF fold s).filter keepA = slugifyF fold s := by
    apply List.filter_eq_self.mpr
    intro a ha
    have hg := hchars a ha
    simp only [goodChar, Bool.or_eq_true, Bool.and_eq_true, decide_eq_true_eq,
      Nat.beq_eq_true_eq] at hg
    simp only [keepA, isWordA, isSpaceA, Bool.or_eq_true, Bool.and_eq_true,
      decide_eq_true_eq, Nat.beq_eq_true_eq]
    omega
  have hcol : collapseRuns (slugifyF fold s) = slugifyF fold s := by
    apply collapseRuns_fix
    · intro a ha
      have hg := hchars a ha
      simp only [goodChar, Bool.or_eq_true, Bool.and_eq_true, decide_eq_true_eq,
        Nat.beq_eq_true_eq] at hg
      rw [Bool.eq_false_iff]
      intro habs
      simp only [isSpaceA, Bool.or_eq_true, Nat.beq_eq_true_eq] at habs
      omega
    · exact hchain
  have hstrip : stripEnds (slugifyF fold s) = slugifyF fold s := stripEnds_idem _
  refine ⟨?_, hchars, hchain, stripEnds_head _, stripEnds_last _⟩
  conv_lhs => rw [slugifyF]
  rw [hid _ hascii, hmap, hfil, hcol, hstrip]

theorem asciiFilter_ascii (s : List Char) : allAscii (asciiFilter s) = true := by
  rw [allAscii, List.all_eq_true]
  intro c hc
  exact (List.mem_filter.mp hc).2

theorem asciiFilter_fix (s : List Char) (h : allAscii s = true) :
    asciiFilter s = s := by
  rw [allAscii, List.all_eq_true] at h
  exact List.filter_eq_self.mpr h

theorem slugify_ascii_idempotent_witness :
    slugifyF asciiFilter (slugifyF asciiFilter ['M', 'y', ' ', 'D', 'B', '!']) =
      slugifyF asciiFilter ['M', 'y', ' ', 'D', 'B', '!'] :=
  (slugify_ascii_idempotent asciiFilter asciiFilter_ascii asciiFilter_fix
    ['M', 'y', ' ', 'D', 'B', '!']).1

/-! ## The `allow_unicode=True` branch is not idempotent

With `allow_unicode=True` the code applies NFKC and keeps Unicode word
characters.  `nfkcM` models `unicodedata.normalize('NFKC', ·)` restricted
to strings over the code points appearing below — U+1100 `ᄀ` (Hangul
choseong kiyeok), U+1161 `ᅡ` (jungseong a), U+AC00 `가` and `!`:
per the Unicode standard's Hangul composition, an adjacent L+V jamo pair
composes to the precomposed LV syllable, every other adjacency among these
code points is left alone, and each of these code points is itself
NFKC-invariant.  `keepU` models `[^\w\s-]` removal on the same code
points: the jamo and the syllable are alphabetic (kept), `!` is not
(removed).  None of these characters is cased, so the `lower()` step —
`asciiLowerChar` touches only A–Z — leaves them unchanged. -/

def nfkcM : List Char → List Char
  | 'ᄀ' :: 'ᅡ' :: rest => '가' :: nfkcM rest
  | c :: rest => c :: nfkcM rest
  | [] => []

def isWordU (c : Char) : Bool :=
  isWordA c || c == 'ᄀ' || c == 'ᅡ' || c == '가'

def keepU (c : Char) : Bool :=
  isWordU c || isSpaceA c || c.toNat == 45

/-- `slugify` with `allow_unicode=True` on the modelled code points:
NFKC, lowercase, delete `[^\w\s-]`, collapse runs, strip ends. -/
def slugifyTrue (s : List Char) : List Char :=
  stripEnds (collapseRuns (((nfkcM s).map asciiLowerChar).filter keepU))

/-- C9 (counterexample): `slugify` with `allow_unicode=True` is not
idempotent.  On `ᄀ!ᅡ` the `!` blocks Hangul composition during NFKC, the
`[^\w\s-]` substitution then deletes the `!`, and the now-adjacent jamo
pair `가` composes to the single syllable `가` on the second
application: `slugify(slugify('ᄀ!ᅡ')) = '가' ≠ '가' = slugify('ᄀ!ᅡ')`. -/
theorem slugify_unicode_not_idempotent :
    slugifyTrue (slugifyTrue ['ᄀ', '!', 'ᅡ']) ≠ slugifyTrue ['ᄀ', '!', 'ᅡ'] := by
  decide

end Chronoschema
